import Mathlib

/-!
Verification of the dirdiff comparison engine.

This file gives a shallow embedding of the core of the dirdiff program
(hashes.go, the scanner of unnamed/part_004, the reconciliation and
classifier of unnamed/part_000 and unnamed/part_002, and the RPC glue of
node.go and unnamed/part_003) and proves the specification claims about it.

Modelling conventions:
- Relative slash-separated paths are modelled as lists of components
  (`RPath := List String`); the Go code's `path.Dir` is `List.dropLast`
  and string concatenation with `/` is list append.
- File contents are byte lists (`List Nat`); a cryptographic hash is
  modelled as the exact byte stream fed to the hasher, so two digests are
  equal exactly when the same bytes were fed in the same order.
- Fallible I/O returns `Except`/`Option`.
-/

set_option maxRecDepth 100000

/-- Relative path (RPath), as its slash-separated components. -/
abbrev RPath := List String

/-! ## Lexicographic order on paths

`sort.Strings` sorts slash-joined relative paths byte-lexicographically.
We model the sort on component lists with a lexicographic order; the only
property of the Go order the reconciliation logic relies on is that a
proper ancestor sorts strictly before its descendants, which holds for
both orders, and the emitted set of diff items is order-independent
beyond that. -/

/-- Lexicographic comparison of component lists, ordering components as strings. -/
def pathLe : RPath → RPath → Bool
  | [], _ => true
  | _ :: _, [] => false
  | a :: as, b :: bs => if a < b then true else if b < a then false else pathLe as bs

theorem pathLe_refl (p : RPath) : pathLe p p = true := by
  induction p with
  | nil => rfl
  | cons a as ih => simp [pathLe, ih]

theorem pathLe_total (p q : RPath) : pathLe p q = true ∨ pathLe q p = true := by
  induction p generalizing q with
  | nil => left; rfl
  | cons a as ih =>
    cases q with
    | nil => right; rfl
    | cons b bs =>
      rcases lt_trichotomy a b with h | h | h
      · left; simp [pathLe, h]
      · subst h
        rcases ih bs with h2 | h2
        · left; simp [pathLe, lt_irrefl, h2]
        · right; simp [pathLe, lt_irrefl, h2]
      · right; simp [pathLe, h]

theorem pathLe_antisymm {p q : RPath} (h1 : pathLe p q = true) (h2 : pathLe q p = true) :
    p = q := by
  induction p generalizing q with
  | nil =>
    cases q with
    | nil => rfl
    | cons b bs => simp [pathLe] at h2
  | cons a as ih =>
    cases q with
    | nil => simp [pathLe] at h1
    | cons b bs =>
      rcases lt_trichotomy a b with h | h | h
      · have : ¬ b < a := not_lt_of_gt h
        simp [pathLe, h, this] at h2
      · subst h
        simp only [pathLe, lt_irrefl, if_false] at h1 h2
        rw [ih h1 h2]
      · have : ¬ a < b := not_lt_of_gt h
        simp [pathLe, h, this] at h1

theorem pathLe_trans {p q r : RPath} (h1 : pathLe p q = true) (h2 : pathLe q r = true) :
    pathLe p r = true := by
  induction p generalizing q r with
  | nil => rfl
  | cons a as ih =>
    cases q with
    | nil => simp [pathLe] at h1
    | cons b bs =>
      cases r with
      | nil => simp [pathLe] at h2
      | cons c cs =>
        simp only [pathLe] at h1 h2 ⊢
        by_cases hab : a < b
        · by_cases hbc : b < c
          · simp [lt_trans hab hbc]
          · by_cases hcb : c < b
            · simp [hbc, hcb] at h2
            · have hbceq : b = c := le_antisymm (not_lt.mp hcb) (not_lt.mp hbc)
              subst hbceq
              simp [hab]
        · by_cases hba : b < a
          · simp [hab, hba] at h1
          · have habeq : a = b := le_antisymm (not_lt.mp hba) (not_lt.mp hab)
            subst habeq
            simp only [lt_irrefl, if_false] at h1
            by_cases hac : a < c
            · simp [hac]
            · by_cases hca : c < a
              · simp [hac, hca] at h2
              · have haceq : a = c := le_antisymm (not_lt.mp hca) (not_lt.mp hac)
                subst haceq
                simp only [lt_irrefl, if_false] at h2 ⊢
                exact ih h1 h2

/-- Strict proper-ancestor relation: `u` is a proper, nonempty leading
segment of `v` (e.g. `a` and `a/b` are ancestors of `a/b/c`). -/
def Ancestor (u v : RPath) : Prop := u ≠ [] ∧ ∃ w, w ≠ [] ∧ v = u ++ w

theorem pathLe_of_ancestor {u v : RPath} (h : Ancestor u v) : pathLe u v = true := by
  obtain ⟨-, w, -, rfl⟩ := h
  induction u with
  | nil => rfl
  | cons a as ih => simp [pathLe, lt_irrefl, ih]

theorem Ancestor.ne {u v : RPath} (h : Ancestor u v) : u ≠ v := by
  obtain ⟨-, w, hw, rfl⟩ := h
  intro hc
  have := congrArg List.length hc
  simp at this
  exact hw this

theorem Ancestor.irrefl (u : RPath) : ¬ Ancestor u u := fun h => h.ne rfl

theorem not_pathLe_of_ancestor {u v : RPath} (h : Ancestor u v) : pathLe v u = false := by
  cases hpq : pathLe v u with
  | false => rfl
  | true => exact absurd (pathLe_antisymm (pathLe_of_ancestor h) hpq) h.ne

/-! ## Sorting (model of sort.Strings / sort.Slice on paths) -/

/-- Insertion of a path into a sorted list. -/
def insertSorted (x : RPath) : List RPath → List RPath
  | [] => [x]
  | y :: ys => if pathLe x y then x :: y :: ys else y :: insertSorted x ys

/-- Sorting of a list of paths; models `sort.Strings`, whose output (the
sorted permutation) is independent of the algorithm used. -/
def sortPaths : List RPath → List RPath
  | [] => []
  | x :: xs => insertSorted x (sortPaths xs)

theorem insertSorted_perm (x : RPath) (l : List RPath) :
    List.Perm (insertSorted x l) (x :: l) := by
  induction l with
  | nil => simp [insertSorted]
  | cons y ys ih =>
    by_cases h : pathLe x y = true
    · simp [insertSorted, h]
    · simp only [insertSorted, h, if_false]
      exact ((ih.cons y).trans (List.Perm.swap x y ys))

theorem sortPaths_perm (l : List RPath) : List.Perm (sortPaths l) l := by
  induction l with
  | nil => simp [sortPaths]
  | cons x xs ih => exact (insertSorted_perm x (sortPaths xs)).trans (ih.cons x)

theorem mem_sortPaths {u : RPath} {l : List RPath} : u ∈ sortPaths l ↔ u ∈ l :=
  (sortPaths_perm l).mem_iff

theorem sortPaths_nodup {l : List RPath} (h : l.Nodup) : (sortPaths l).Nodup :=
  ((sortPaths_perm l).nodup_iff).mpr h

theorem insertSorted_sorted {l : List RPath} (x : RPath)
    (h : l.Pairwise (fun a b => pathLe a b = true)) :
    (insertSorted x l).Pairwise (fun a b => pathLe a b = true) := by
  induction l with
  | nil => simp [insertSorted]
  | cons y ys ih =>
    rw [List.pairwise_cons] at h
    obtain ⟨hy, hys⟩ := h
    by_cases hxy : pathLe x y = true
    · simp only [insertSorted, hxy, if_true]
      refine List.pairwise_cons.mpr ⟨?_, List.pairwise_cons.mpr ⟨hy, hys⟩⟩
      intro b hb
      rcases List.mem_cons.mp hb with rfl | hb
      · exact hxy
      · exact pathLe_trans hxy (hy b hb)
    · simp only [insertSorted, hxy, if_false]
      refine List.pairwise_cons.mpr ⟨?_, ih hys⟩
      intro b hb
      have hb2 := (insertSorted_perm x ys).mem_iff.mp hb
      rcases List.mem_cons.mp hb2 with rfl | hb2
      · rcases pathLe_total y b with h2 | h2
        · exact h2
        · exact absurd h2 hxy
      · exact hy b hb2

theorem sortPaths_sorted (l : List RPath) :
    (sortPaths l).Pairwise (fun a b => pathLe a b = true) := by
  induction l with
  | nil => simp [sortPaths]
  | cons x xs ih => exact insertSorted_sorted x ih

/-! ## isInside (unnamed/part_000)

The Go loop starts at `path.Dir(slashPath)` and walks up with `path.Dir`
until it reaches `"."` (our `[]`), testing membership in `dirSet` at each
step; on component lists `path.Dir` is `List.dropLast`. -/

/-- Decomposition of a nonempty list into leading part and last element. -/
theorem exists_concat {l : RPath} (h : l ≠ []) : ∃ q a, l = q ++ [a] :=
  ⟨l.dropLast, l.getLast h, (List.dropLast_append_getLast h).symm⟩

/-- Test whether some proper ancestor directory of `p` is in `dirSet`. -/
def isInside (p : RPath) (dirSet : List RPath) : Bool :=
  if p.dropLast = [] then false
  else decide (p.dropLast ∈ dirSet) || isInside p.dropLast dirSet
termination_by p.length
decreasing_by
  rename_i h
  rw [List.length_dropLast]
  have hp : p ≠ [] := by
    intro hc
    subst hc
    exact h rfl
  have := List.length_pos.mpr hp
  omega

theorem ancestor_dropLast_iff {u p : RPath} (hp : p ≠ []) :
    Ancestor u p ↔ ((u = p.dropLast ∧ u ≠ []) ∨ Ancestor u p.dropLast) := by
  obtain ⟨q, a, rfl⟩ := exists_concat hp
  rw [List.dropLast_concat]
  constructor
  · rintro ⟨hu, w, hw, hconcat⟩
    obtain ⟨w2, b, rfl⟩ := exists_concat hw
    rw [← List.append_assoc] at hconcat
    have hlast : a = b := by
      have := congrArg (fun l => l.getLast?) hconcat
      simpa using this
    subst hlast
    have hq : q = u ++ w2 := by
      have := congrArg List.dropLast hconcat
      simpa [List.dropLast_concat] using this
    rcases eq_or_ne w2 [] with rfl | hw2
    · left
      constructor
      · simpa using hq.symm
      · exact hu
    · right
      exact ⟨hu, w2, hw2, hq⟩
  · rintro (⟨rfl, hu⟩ | ⟨hu, w, hw, rfl⟩)
    · exact ⟨hu, [a], by simp, rfl⟩
    · exact ⟨hu, w ++ [a], by simp, by simp⟩

theorem isInside_iff (p : RPath) (ds : List RPath) :
    isInside p ds = true ↔ ∃ u, u ∈ ds ∧ Ancestor u p := by
  rw [isInside]
  by_cases hd : p.dropLast = []
  · simp only [hd, if_true, Bool.false_eq_true, false_iff]
    rintro ⟨u, hu, hne, w, hw, rfl⟩
    have hlen := congrArg List.length hd
    simp only [List.length_dropLast, List.length_append, List.length_nil] at hlen
    have h1 : 0 < u.length := List.length_pos.mpr hne
    have h2 : 0 < w.length := List.length_pos.mpr hw
    omega
  · have hp : p ≠ [] := by
      intro hc
      subst hc
      exact hd rfl
    have IH := isInside_iff p.dropLast ds
    simp only [hd, if_false, Bool.or_eq_true, decide_eq_true_iff, IH]
    constructor
    · rintro (hmem | ⟨u, hu, hanc⟩)
      · exact ⟨p.dropLast, hmem, (ancestor_dropLast_iff hp).mpr (Or.inl ⟨rfl, hd⟩)⟩
      · exact ⟨u, hu, (ancestor_dropLast_iff hp).mpr (Or.inr hanc)⟩
    · rintro ⟨u, hu, hanc⟩
      rcases (ancestor_dropLast_iff hp).mp hanc with ⟨rfl, -⟩ | hanc2
      · exact Or.inl hu
      · exact Or.inr ⟨u, hu, hanc2⟩
termination_by p.length
decreasing_by
  rw [List.length_dropLast]
  have := List.length_pos.mpr hp
  omega

/-! ## Sparse hasher (hashes.go)

A hash.Hash digest is modelled as the exact byte stream written to the
hasher, by injectivity of the modelled digest; file bytes are `List Nat`.
The filesystem object a call operates on is a `HashTarget`, a snapshot of
what Lstat/Readlink/Open observe for the path. -/

/-- Filesystem object seen by one computeSparseHash call.
`regular content` is a readable regular file holding `content`;
`symlink target resolved` is a symbolic link whose Readlink gives
`target` (`none` when Readlink fails) and an Open through the link
yields a file of bytes `resolved` (`none` when the resolution fails);
`missing` makes Lstat fail; `unreadable` is a regular file whose Open
fails. -/
inductive HashTarget where
  | regular (content : List Nat)
  | symlink (target : Option (List Nat)) (resolved : Option (List Nat))
  | missing
  | unreadable

/-- Bytes `io.CopyN` feeds from offset `pos`: `some` exactly when the
seek offset is non-negative and `n` bytes exist before end of file
(`io.CopyN` reports an error on a short read, `Seek` rejects a negative
offset). -/
def copyN (content : List Nat) (pos : Int) (n : Nat) : Option (List Nat) :=
  if pos < 0 then none
  else if pos.toNat + n ≤ content.length then some ((content.drop pos.toNat).take n)
  else none

/-- Byte stream computeSparseHash feeds for an opened regular stream of
`content` (its size is `content.length`, a consistent snapshot): the full
stream when `limit <= 0` or the size is within the limit, otherwise the
head chunk, the middle chunk and the tail chunk; `none` when one of the
seek/short-read error branches fires. -/
def sparseBytes (content : List Nat) (limit : Int) : Option (List Nat) :=
  let fileSize : Int := content.length
  if limit ≤ 0 ∨ fileSize ≤ limit then some content
  else
    let chunkSize := limit / 3
    let lastChunkSize := limit - chunkSize * 2
    match copyN content 0 chunkSize.toNat with
    | none => none
    | some head =>
      match copyN content (fileSize / 2 - chunkSize / 2) chunkSize.toNat with
      | none => none
      | some mid =>
        match copyN content (fileSize - lastChunkSize) lastChunkSize.toNat with
        | none => none
        | some tail => some (head ++ mid ++ tail)

/-- Model of computeSparseHash (hashes.go): Lstat failure is an error; a
symlink that is not followed hashes its Readlink target string and never
opens the filesystem target; otherwise the (possibly resolved) file is
opened and `sparseBytes` gives the digest. The size of a followed
symlink's file comes from f.Stat on the open handle, i.e. the resolved
content's length. -/
def computeSparseHash (t : HashTarget) (limit : Int) (followSym : Bool) :
    Except Unit (List Nat) :=
  match t with
  | .missing => .error ()
  | .symlink target resolved =>
    if followSym then
      match resolved with
      | none => .error ()
      | some c =>
        match sparseBytes c limit with
        | none => .error ()
        | some d => .ok d
    else
      match target with
      | none => .error ()
      | some tgt => .ok tgt
  | .regular c =>
    match sparseBytes c limit with
    | none => .error ()
    | some d => .ok d
  | .unreadable => .error ()

/-- Model of coreMD5 (hashes.go): the quick hash, fixed limit 1024. -/
def coreMD5 (t : HashTarget) (followSym : Bool) : Except Unit (List Nat) :=
  computeSparseHash t 1024 followSym

/-- Model of coreSHA (hashes.go): the full/sparse hash with a caller limit. -/
def coreSHA (t : HashTarget) (limit : Int) (followSym : Bool) : Except Unit (List Nat) :=
  computeSparseHash t limit followSym

/-! ## Diff items and the outcome classifier (unnamed/part_000, unnamed/part_002) -/

/-- ChangeType of unnamed/part_000. -/
inductive ChangeType where
  | added
  | removed
  | modified
deriving DecidableEq, Repr

/-- DiffItem of unnamed/part_000; paths as component lists. -/
structure DiffItem where
  path : RPath
  ctype : ChangeType
  isDir : Bool
deriving DecidableEq, Repr

/-- Verdict returned by printAndDetermineExit: `identical` is the nil
return, the three others the sentinel errors of unnamed/part_000. -/
inductive Verdict where
  | identical
  | diffsFound
  | aSubsetB
  | bSubsetA
deriving DecidableEq, Repr

/-- Model of printAndDetermineExit (unnamed/part_002), restricted to its
returned verdict: the statistics loop counts added/removed separately for
files and directories and counts modified files only (a Modified
directory item falls outside both switch statements); printing and the
initial sort by path do not affect the returned value. -/
def printAndDetermineExit (results : List DiffItem) : Verdict :=
  let addedFiles := results.countP (fun i => !i.isDir && decide (i.ctype = .added))
  let removedFiles := results.countP (fun i => !i.isDir && decide (i.ctype = .removed))
  let modifiedFiles := results.countP (fun i => !i.isDir && decide (i.ctype = .modified))
  let addedDirs := results.countP (fun i => i.isDir && decide (i.ctype = .added))
  let removedDirs := results.countP (fun i => i.isDir && decide (i.ctype = .removed))
  let hasAdded := decide (0 < addedFiles) || decide (0 < addedDirs)
  let hasRemoved := decide (0 < removedFiles) || decide (0 < removedDirs)
  let hasModified := decide (0 < modifiedFiles)
  if results.length = 0 then .identical
  else if hasModified || (hasAdded && hasRemoved) then .diffsFound
  else if hasAdded then .aSubsetB
  else if hasRemoved then .bSubsetA
  else .identical

/-! ## RPC replies (node.go, unnamed/part_003)

The client methods are modelled as functions of the reply the RPC layer
filled in and of the transport-level error of `client.Call`; the agent
handlers as functions of the outcome of the core call they wrap, giving
the reply and the Go error the handler returns to the rpc package. -/

/-- ScanReply of node.go. -/
structure ScanReply where
  files : List (RPath × Int)
  dirs : List RPath
  error : String
deriving Repr

/-- HashReply of node.go; the digest is an opaque string here. -/
structure HashReply where
  hash : String
  error : String
deriving Repr

/-- Model of RemoteNode.Scan (node.go): a non-empty reply error wins and
drops the data, then a transport error, then the payload. -/
def remoteScan (reply : ScanReply) (transportErr : Option String) :
    Except String (List (RPath × Int) × List RPath) :=
  if reply.error ≠ "" then .error reply.error
  else
    match transportErr with
    | some e => .error e
    | none => .ok (reply.files, reply.dirs)

/-- Model of RemoteNode.GetMD5 (node.go). -/
def remoteGetMD5 (reply : HashReply) (transportErr : Option String) :
    Except String String :=
  if reply.error ≠ "" then .error reply.error
  else
    match transportErr with
    | some e => .error e
    | none => .ok reply.hash

/-- Model of RemoteNode.GetSHA (node.go). -/
def remoteGetSHA (reply : HashReply) (transportErr : Option String) :
    Except String String :=
  if reply.error ≠ "" then .error reply.error
  else
    match transportErr with
    | some e => .error e
    | none => .ok reply.hash

/-- Model of RpcAgent.Scan (unnamed/part_003) as a function of the
coreScan outcome: a failure is written into the reply's Error field (the
nil data giving empty files/dirs), and the handler's own Go error is
always nil. -/
def agentScan (core : Except String (List (RPath × Int) × List RPath)) :
    ScanReply × Option String :=
  match core with
  | .error e => (⟨[], [], e⟩, none)
  | .ok (f, d) => (⟨f, d, ""⟩, none)

/-- Model of RpcAgent.GetMD5 (unnamed/part_003). -/
def agentGetMD5 (core : Except String String) : HashReply × Option String :=
  match core with
  | .error e => (⟨"", e⟩, none)
  | .ok h => (⟨h, ""⟩, none)

/-- Model of RpcAgent.GetSHA (unnamed/part_003). -/
def agentGetSHA (core : Except String String) : HashReply × Option String :=
  match core with
  | .error e => (⟨"", e⟩, none)
  | .ok h => (⟨h, ""⟩, none)

/-! ## Reconciliation phase (runMaster, unnamed/part_000)

The two files maps enter as their key lists (Go map iteration order is
arbitrary; every emitted-set property proved below is independent of it),
the dirs as lists. `dirMapA` is the key set of the Go map built from
dirsA, hence `dirsA.dedup`. -/

/-- Added-directories loop of runMaster over the sorted dirsB, carrying
dirMapA and addedDirs. A directory present in dirMapA is dropped from it
(the `delete` of the source; for a directory not present the delete is a
no-op and is reached only on the emit path, so it is elided); a directory
unique to B is accumulated into addedDirs first and then, unless pruning
applies, emitted. Returns final dirMapA, final addedDirs and the emitted
items. -/
def addedDirsLoop (showAll : Bool) :
    List RPath → List RPath → List RPath → (List RPath × List RPath × List DiffItem)
  | [], dm, ad => (dm, ad, [])
  | d :: rest, dm, ad =>
    if d ∈ dm then
      addedDirsLoop showAll rest (dm.filter (fun x => decide (x ≠ d))) ad
    else
      let ad2 := ad ++ [d]
      if !showAll && isInside d ad2 then
        addedDirsLoop showAll rest dm ad2
      else
        let r := addedDirsLoop showAll rest dm ad2
        (r.1, r.2.1, ⟨d, .added, true⟩ :: r.2.2)

/-- Removed-directories loop of runMaster over the sorted remaining
dirsA, carrying removedDirs. -/
def removedDirsLoop (showAll : Bool) :
    List RPath → List RPath → (List RPath × List DiffItem)
  | [], rd => (rd, [])
  | d :: rest, rd =>
    let rd2 := rd ++ [d]
    if !showAll && isInside d rd2 then
      removedDirsLoop showAll rest rd2
    else
      let r := removedDirsLoop showAll rest rd2
      (r.1, ⟨d, .removed, true⟩ :: r.2)

/-- Result of the reconciliation phase: the emitted Added/Removed items
and the common files (inputs of the later concurrent phase). -/
structure ReconcileResult where
  items : List DiffItem
  common : List RPath
deriving Repr

/-- Model of the single-threaded reconciliation phase of runMaster: the
unique-directory loops over both sides followed by the two unique-file
loops, each pruned by `isInside` against the final directory sets of the
same side (the directory loops have completed by then). -/
def reconcile (showAll : Bool) (filesA filesB : List RPath)
    (dirsA dirsB : List RPath) : ReconcileResult :=
  let dm0 := dirsA.dedup
  let ra := addedDirsLoop showAll (sortPaths dirsB) dm0 []
  let dmF := ra.1
  let adF := ra.2.1
  let addedItems := ra.2.2
  let rr := removedDirsLoop showAll (sortPaths dmF) []
  let rdF := rr.1
  let removedItems := rr.2
  let removedFileItems := (filesA.filter (fun p => decide (p ∉ filesB))).filterMap
    (fun p => if !showAll && isInside p rdF then none else some ⟨p, .removed, false⟩)
  let commonFiles := filesA.filter (fun p => decide (p ∈ filesB))
  let addedFileItems := (filesB.filter (fun p => decide (p ∉ filesA))).filterMap
    (fun p => if !showAll && isInside p adF then none else some ⟨p, .added, false⟩)
  ⟨addedItems ++ removedItems ++ removedFileItems ++ addedFileItems, commonFiles⟩

/-! ## Tree scanner (coreScan, unnamed/part_004)

The filesystem is a snapshot of what the walk's Lstat / EvalSymlinks /
Stat / ReadDir calls observe. A directory's entries carry the (unique)
names ReadDir reports; a ReadDir failure is a directory with no entries
(same observable behaviour: the directory is recorded, nothing below it).
A symlink carries its link text (its Lstat size is the text's length,
as on POSIX) and the outcome of resolving it: `SymResolved.fail` when
EvalSymlinks or the subsequent Stat fails, otherwise the canonical real
path (the cycle-guard key) with the fully resolved entry; os.Stat never
reports a symlink, so a nested symlink under `SymResolved.ok` cannot be
observed and is skipped. `broken` is an entry whose Lstat fails. -/

mutual
inductive FSEntry where
  | file (size : Int)
  | dir (entries : FSEntries)
  | symlink (target : String) (resolved : SymResolved)
  | broken

inductive FSEntries where
  | nil
  | cons (name : String) (entry : FSEntry) (rest : FSEntries)

inductive SymResolved where
  | fail
  | ok (realPath : String) (entry : FSEntry)
end

/-- Child names of a directory's entry list. -/
def namesOf : FSEntries → List String
  | .nil => []
  | .cons n _ rest => n :: namesOf rest

/-- Scanner configuration: compiled include and exclude globs (glob
compilation, the only hard-error path of coreScan, is elided) and the
follow-symlinks switch. -/
structure ScanCfg where
  followSym : Bool
  incGlobs : List (RPath → Bool)
  excGlobs : List (RPath → Bool)

/-- Mutable state of the walk closure: the files map (as an association
list with Go-map assignment), the dirs slice, and the visited canonical
paths of the symlink cycle guard. -/
structure ScanState where
  files : List (RPath × Int)
  dirs : List RPath
  visited : List String

/-- Go map assignment `m[k] = v`. -/
def mapInsert (k : RPath) (v : Int) : List (RPath × Int) → List (RPath × Int)
  | [] => [(k, v)]
  | (k2, v2) :: rest => if k2 = k then (k, v) :: rest else (k2, v2) :: mapInsert k v rest

/-- Non-directory branch of the walk: nothing is recorded for the root
(empty rel); otherwise the exclude globs are checked, then the include
globs (when any are configured), then the file is recorded with its
size. -/
def fileStep (cfg : ScanCfg) (size : Int) (rel : RPath) (s : ScanState) : ScanState :=
  if rel = [] then s
  else if cfg.excGlobs.any (fun g => g rel) then s
  else if !cfg.incGlobs.isEmpty && !cfg.incGlobs.any (fun g => g rel) then s
  else { s with files := mapInsert rel size s.files }

mutual
/-- Model of the recursive `walk` closure of coreScan: Lstat failure
skips; a followed symlink is resolved, checked against and entered into
the cycle guard, and continued with the resolved entry at the same rel;
an unfollowed symlink is a non-directory whose Lstat size is the length
of its link text; a directory is checked against the excludes, recorded
(except the root) and its entries walked. -/
def walk (cfg : ScanCfg) : FSEntry → RPath → ScanState → ScanState
  | .broken, _, s => s
  | .file size, rel, s => fileStep cfg size rel s
  | .symlink target res, rel, s =>
    if cfg.followSym then
      match res with
      | .fail => s
      | .ok realPath e =>
        if realPath ∈ s.visited then s
        else walkResolved cfg e rel { s with visited := realPath :: s.visited }
    else fileStep cfg (Int.ofNat target.length) rel s
  | .dir entries, rel, s =>
    if rel ≠ [] ∧ cfg.excGlobs.any (fun g => g rel) = true then s
    else walkEntries cfg entries rel
      (if rel = [] then s else { s with dirs := s.dirs ++ [rel] })

/-- Continuation of `walk` after a followed symlink was swapped to its
Stat'ed target: the same rel is classified by the resolved entry. -/
def walkResolved (cfg : ScanCfg) : FSEntry → RPath → ScanState → ScanState
  | .file size, rel, s => fileStep cfg size rel s
  | .dir entries, rel, s =>
    if rel ≠ [] ∧ cfg.excGlobs.any (fun g => g rel) = true then s
    else walkEntries cfg entries rel
      (if rel = [] then s else { s with dirs := s.dirs ++ [rel] })
  | .symlink _ _, _, s => s
  | .broken, _, s => s

/-- Walk of a directory's children, left to right, threading the state. -/
def walkEntries (cfg : ScanCfg) : FSEntries → RPath → ScanState → ScanState
  | .nil, _, s => s
  | .cons name e rest, rel, s => walkEntries cfg rest rel (walk cfg e (rel ++ [name]) s)
end

/-- Model of coreScan (unnamed/part_004): run the walk from the root at
the empty rel with empty state. The walk literally returns nil on every
branch in the source, so the scan past glob compilation cannot fail and
the model is total; in particular a `broken` root (Lstat failure, e.g. a
nonexistent root) yields an empty, error-free result. -/
def coreScan (root : FSEntry) (cfg : ScanCfg) : List (RPath × Int) × List RPath :=
  let s := walk cfg root [] ⟨[], [], []⟩
  (s.files, s.dirs)

mutual
/-- Well-formedness of a filesystem snapshot: every directory's child
names are distinct, as ReadDir guarantees. -/
def wfEntry : FSEntry → Bool
  | .file _ => true
  | .dir entries => wfEntries entries
  | .symlink _ res => wfResolved res
  | .broken => true

def wfEntries : FSEntries → Bool
  | .nil => true
  | .cons n e rest =>
    decide (n ∉ namesOf rest) && wfEntry e && wfEntries rest

def wfResolved : SymResolved → Bool
  | .fail => true
  | .ok _ e => wfEntry e
end

deriving instance DecidableEq for Except

/-! ## Hashing lemmas and claims -/

theorem copyN_eq_some {content : List Nat} {pos : Int} {n : Nat}
    (h0 : 0 ≤ pos) (h1 : pos.toNat + n ≤ content.length) :
    copyN content pos n = some ((content.drop pos.toNat).take n) := by
  rw [copyN, if_neg (by omega), if_pos h1]

/-- Sparse branch of sparseBytes, fully evaluated: for 0 < limit < size
all three reads succeed and yield the three chunks. -/
theorem sparseBytes_sparse (c : List Nat) (limit : Int)
    (hpos : 0 < limit) (hlt : limit < (c.length : Int)) :
    sparseBytes c limit =
      some ((c.drop (0 : Int).toNat).take (limit / 3).toNat
        ++ ((c.drop ((c.length : Int) / 2 - limit / 3 / 2).toNat).take (limit / 3).toNat
        ++ (c.drop ((c.length : Int) - (limit - limit / 3 * 2)).toNat).take
             (limit - limit / 3 * 2).toNat)) := by
  rw [sparseBytes]
  rw [if_neg (by omega)]
  dsimp only
  rw [copyN_eq_some (by omega) (by simp only [Int.toNat_zero, Nat.zero_add]; omega)]
  rw [copyN_eq_some (by omega) (by omega)]
  rw [copyN_eq_some (by omega) (by omega)]
  simp

/-- C3: for every file with size > limit > 0, the sparse hash feeds the
digest exactly these bytes in this order: with chunk = limit/3 (integer
division) and lastChunk = limit - 2*chunk (so the three chunks sum
exactly to limit), bytes [0, chunk), then chunk bytes starting at offset
floor(size/2) - floor(chunk/2), then the final lastChunk bytes starting
at offset size - lastChunk. -/
theorem C3_sparse_schedule (c : List Nat) (limit : Int) (followSym : Bool)
    (hpos : 0 < limit) (hlt : limit < (c.length : Int)) :
    computeSparseHash (.regular c) limit followSym =
      .ok (c.take (limit / 3).toNat
        ++ ((c.drop (c.length / 2 - (limit / 3).toNat / 2)).take (limit / 3).toNat
        ++ c.drop (c.length - (limit.toNat - 2 * (limit / 3).toNat))))
    ∧ (limit / 3).toNat + (limit / 3).toNat + (limit.toNat - 2 * (limit / 3).toNat)
        = limit.toNat
    ∧ (c.drop (c.length - (limit.toNat - 2 * (limit / 3).toNat))).length
        = limit.toNat - 2 * (limit / 3).toNat := by
  refine ⟨?_, by omega, by simp only [List.length_drop]; omega⟩
  have e1 : ((c.length : Int) / 2 - limit / 3 / 2).toNat
      = c.length / 2 - (limit / 3).toNat / 2 := by omega
  have e2 : ((c.length : Int) - (limit - limit / 3 * 2)).toNat
      = c.length - (limit.toNat - 2 * (limit / 3).toNat) := by omega
  have e3 : (limit - limit / 3 * 2).toNat = limit.toNat - 2 * (limit / 3).toNat := by omega
  simp only [computeSparseHash, sparseBytes_sparse c limit hpos hlt, e1, e2, e3,
    Int.toNat_zero, List.drop_zero]
  have hlen2 : (c.drop (c.length - (limit.toNat - 2 * (limit / 3).toNat))).length
      ≤ limit.toNat - 2 * (limit / 3).toNat := by
    simp only [List.length_drop]
    omega
  rw [List.take_of_length_le hlen2]

/-- C3 witness: a concrete 10-byte file with limit 4 hashes byte 0, then
byte 5, then the final two bytes. -/
theorem C3_sparse_schedule_witness :
    (0 : Int) < 4 ∧ (4 : Int) < (([0,1,2,3,4,5,6,7,8,9] : List Nat).length : Int) ∧
    computeSparseHash (.regular [0,1,2,3,4,5,6,7,8,9]) 4 false = .ok [0, 5, 8, 9] := by
  refine ⟨by norm_num, by norm_num, ?_⟩
  have h := (C3_sparse_schedule [0,1,2,3,4,5,6,7,8,9] 4 false (by norm_num) (by norm_num)).1
  rw [h]
  rfl

/-- C10: whenever computeSparseHash takes the sparse branch (fileSize >
limit > 0), both seek offsets — fileSize/2 - chunk/2 and
fileSize - lastChunk — are non-negative and at most fileSize, each of the
three CopyN reads requests only bytes that exist before end-of-file, and
on a well-formed file of the stat'ed size none of the seek/short-read
error branches is reachable. -/
theorem C10_sparse_offsets_safe (c : List Nat) (limit : Int) (followSym : Bool)
    (hpos : 0 < limit) (hlt : limit < (c.length : Int)) :
    (0 ≤ (c.length : Int) / 2 - limit / 3 / 2
      ∧ (c.length : Int) / 2 - limit / 3 / 2 ≤ (c.length : Int)
      ∧ ((c.length : Int) / 2 - limit / 3 / 2).toNat + (limit / 3).toNat ≤ c.length)
    ∧ (0 ≤ (c.length : Int) - (limit - limit / 3 * 2)
      ∧ (c.length : Int) - (limit - limit / 3 * 2) ≤ (c.length : Int)
      ∧ ((c.length : Int) - (limit - limit / 3 * 2)).toNat
          + (limit - limit / 3 * 2).toNat ≤ c.length)
    ∧ (limit / 3).toNat ≤ c.length
    ∧ (∃ d, computeSparseHash (.regular c) limit followSym = .ok d) := by
  refine ⟨⟨by omega, by omega, by omega⟩, ⟨by omega, by omega, by omega⟩, by omega,
    ⟨(c.drop (0 : Int).toNat).take (limit / 3).toNat
      ++ ((c.drop ((c.length : Int) / 2 - limit / 3 / 2).toNat).take (limit / 3).toNat
      ++ (c.drop ((c.length : Int) - (limit - limit / 3 * 2)).toNat).take
           (limit - limit / 3 * 2).toNat), ?_⟩⟩
  simp only [computeSparseHash, sparseBytes_sparse c limit hpos hlt]

/-- C10 witness: a concrete 10-byte file with limit 3 reaches no error
branch. -/
theorem C10_sparse_offsets_safe_witness :
    (0 : Int) < 3 ∧
    ∃ d, computeSparseHash (.regular (List.replicate 10 0)) 3 false = .ok d :=
  ⟨by norm_num,
   (C10_sparse_offsets_safe (List.replicate 10 0) 3 false (by norm_num)
     (by norm_num)).2.2.2⟩

/-- Concrete file contents for the quick-hash claims: 1030 zero bytes. -/
def qcA : List Nat := List.replicate 1030 0

/-- Same length and same first 1024 bytes as `qcA`, different last byte. -/
def qcB : List Nat := List.replicate 1029 0 ++ [1]

/-- Same length as `qcA`, same sampled regions under limit 1024, but a
different byte at offset 342, strictly between the head chunk [0, 341)
and the middle chunk [345, 686). -/
def qcC : List Nat := List.replicate 342 0 ++ [7] ++ List.replicate 687 0

/-- C2 counterexample: for a file whose size (1030) exceeds the
quick-hash limit (1024), the quick hash is not a digest of the head of
the file only — two files agreeing on their first 1024 bytes but
differing in the last byte get different quick hashes, so the value
depends on trailing bytes. -/
theorem C2_quick_hash_not_head_only :
    qcA.take 1024 = qcB.take 1024 ∧ qcA.length = 1030 ∧ qcB.length = 1030 ∧
    coreMD5 (.regular qcA) false ≠ coreMD5 (.regular qcB) false := by decide

/-- C2 amended: the quick hash (GetMD5 / coreMD5) has the fixed limit
1024, independent of the configured fast and global limits, but for a
file whose size exceeds 1024 it is the sparse digest of the head, middle
and tail samples: its value depends only on the leading 341 bytes, the
341 bytes at offset size/2 - 170, and the final 342 bytes — not on the
head alone, and not on any byte strictly between the sampled regions. -/
theorem C2_quick_hash_depends_on_samples (c1 c2 : List Nat) (followSym : Bool)
    (hlen : c1.length = c2.length) (hbig : 1024 < c1.length)
    (hhead : c1.take 341 = c2.take 341)
    (hmid : (c1.drop (c1.length / 2 - 170)).take 341
      = (c2.drop (c2.length / 2 - 170)).take 341)
    (htail : (c1.drop (c1.length - 342)).take 342
      = (c2.drop (c2.length - 342)).take 342) :
    coreMD5 (.regular c1) followSym = coreMD5 (.regular c2) followSym := by
  have hb1 : (1024 : Int) < (c1.length : Int) := by exact_mod_cast hbig
  have hb2 : (1024 : Int) < (c2.length : Int) := by rw [← hlen] at *; exact hb1
  rw [coreMD5, coreMD5]
  simp only [computeSparseHash, sparseBytes_sparse c1 1024 (by norm_num) hb1,
    sparseBytes_sparse c2 1024 (by norm_num) hb2]
  have e1 : ((1024 : Int) / 3).toNat = 341 := by decide
  have em1 : ((c1.length : Int) / 2 - (1024 : Int) / 3 / 2).toNat = c1.length / 2 - 170 := by
    omega
  have em2 : ((c2.length : Int) / 2 - (1024 : Int) / 3 / 2).toNat = c2.length / 2 - 170 := by
    omega
  have et0 : ((1024 : Int) - 1024 / 3 * 2).toNat = 342 := by decide
  have et1 : ((c1.length : Int) - ((1024 : Int) - 1024 / 3 * 2)).toNat = c1.length - 342 := by
    omega
  have et2 : ((c2.length : Int) - ((1024 : Int) - 1024 / 3 * 2)).toNat = c2.length - 342 := by
    omega
  rw [e1, em1, em2, et0, et1, et2]
  simp only [Int.toNat_zero, List.drop_zero]
  rw [hhead, hmid, htail]

/-- C2 amended witness: the quick hashes of `qcA` and `qcC` agree, the
two files differing only strictly between the sampled regions. -/
theorem C2_quick_hash_depends_on_samples_witness :
    1024 < qcA.length ∧ qcA ≠ qcC ∧
    coreMD5 (.regular qcA) false = coreMD5 (.regular qcC) false :=
  ⟨by decide, by decide,
   C2_quick_hash_depends_on_samples qcA qcC false (by decide) (by decide) (by decide)
     (by decide) (by decide)⟩

/-- C6: sparse hashing is deterministic and idempotent — hashing the same
file twice with the same limit and algorithm yields the same digest — and
there is a pair of equal-size files agreeing on the head, middle and tail
sampled regions but differing strictly between the sampled offsets whose
sparse digests (size > limit > 0) are equal while their full-mode digests
(limit = 0) differ. -/
theorem C6_sparse_deterministic_and_diverges :
    (∀ (t : HashTarget) (limit : Int) (followSym : Bool),
      computeSparseHash t limit followSym = computeSparseHash t limit followSym)
    ∧ (∃ c1 c2 : List Nat, c1.length = c2.length ∧ c1 ≠ c2
        ∧ (0 : Int) < 3 ∧ (3 : Int) < (c1.length : Int)
        ∧ coreSHA (.regular c1) 3 false = coreSHA (.regular c2) 3 false
        ∧ coreSHA (.regular c1) 0 false ≠ coreSHA (.regular c2) 0 false) := by
  refine ⟨fun t limit followSym => rfl, ⟨[0,0,0,0,0,0,0,0,0], [0,0,1,0,0,0,0,0,0], ?_⟩⟩
  refine ⟨by decide, by decide, by decide, by decide, by decide, by decide⟩

/-- C7: a symlink hashed with followSymlinks false digests exactly the
link's target string bytes; the filesystem target is never opened (the
digest is independent of what the link resolves to and of the limit), so
two symlinks with the same target string always hash equal even if their
targets resolve to different real files, and two symlinks with different
target strings hash different. -/
theorem C7_symlink_nofollow_hash (tgt tgt2 : List Nat)
    (res res2 : Option (List Nat)) (limit limit2 : Int) :
    computeSparseHash (.symlink (some tgt) res) limit false = .ok tgt
    ∧ computeSparseHash (.symlink (some tgt) res) limit false
        = computeSparseHash (.symlink (some tgt) res2) limit2 false
    ∧ (tgt ≠ tgt2 → computeSparseHash (.symlink (some tgt) res) limit false
        ≠ computeSparseHash (.symlink (some tgt2) res2) limit2 false) := by
  refine ⟨rfl, rfl, fun hne hc => hne ?_⟩
  simpa [computeSparseHash] using hc

/-- C7 witness: concrete symlinks with equal and with different target
strings, the first pair resolving to different contents. -/
theorem C7_symlink_nofollow_hash_witness :
    ([1, 2] : List Nat) ≠ [3] ∧
    computeSparseHash (.symlink (some [1, 2]) (some [7, 7, 7])) 5 false
      ≠ computeSparseHash (.symlink (some [3]) none) 9 false :=
  ⟨by decide,
   (C7_symlink_nofollow_hash [1, 2] [3] (some [7, 7, 7]) none 5 9).2.2 (by decide)⟩

/-- C8: for every RPC reply received by a RemoteNode (Scan, GetMD5,
GetSHA), a non-empty Error string in the reply causes that call to return
a failure carrying that error, with no result data used; dually, the
agent-side handlers always return a nil transport-level Go error — every
core failure is conveyed solely through the reply's Error field, and a
successful core call leaves the Error field empty. -/
theorem C8_rpc_error_contract :
    (∀ (rep : ScanReply) (terr : Option String), rep.error ≠ "" →
      remoteScan rep terr = .error rep.error)
    ∧ (∀ (rep : HashReply) (terr : Option String), rep.error ≠ "" →
      remoteGetMD5 rep terr = .error rep.error
        ∧ remoteGetSHA rep terr = .error rep.error)
    ∧ (∀ core, (agentScan core).2 = none
        ∧ (∀ e, core = .error e → (agentScan core).1.error = e)
        ∧ (∀ v, core = .ok v → (agentScan core).1.error = ""))
    ∧ (∀ core, (agentGetMD5 core).2 = none
        ∧ (∀ e, core = .error e → (agentGetMD5 core).1.error = e)
        ∧ (∀ v, core = .ok v → (agentGetMD5 core).1.error = ""))
    ∧ (∀ core, (agentGetSHA core).2 = none
        ∧ (∀ e, core = .error e → (agentGetSHA core).1.error = e)
        ∧ (∀ v, core = .ok v → (agentGetSHA core).1.error = "")) := by
  refine ⟨fun rep terr h => by rw [remoteScan.eq_def, if_pos h],
    fun rep terr h => ⟨by rw [remoteGetMD5.eq_def, if_pos h],
      by rw [remoteGetSHA.eq_def, if_pos h]⟩,
    fun core => ?_, fun core => ?_, fun core => ?_⟩
  · refine ⟨?_, fun e he => ?_, fun v hv => ?_⟩
    · cases core with
      | error e => rfl
      | ok v => rcases v with ⟨f, d⟩; rfl
    · subst he; rfl
    · subst hv; rcases v with ⟨f, d⟩; rfl
  · refine ⟨?_, fun e he => ?_, fun v hv => ?_⟩
    · cases core with
      | error e => rfl
      | ok v => rfl
    · subst he; rfl
    · subst hv; rfl
  · refine ⟨?_, fun e he => ?_, fun v hv => ?_⟩
    · cases core with
      | error e => rfl
      | ok v => rfl
    · subst he; rfl
    · subst hv; rfl

/-- C8 witness: a concrete reply with a non-empty error fails the client
call, and a concrete failing core call is conveyed through the Error
field with a nil handler error. -/
theorem C8_rpc_error_contract_witness :
    ("boom" : String) ≠ "" ∧
    remoteScan ⟨[(["x"], 1)], [["d"]], "boom"⟩ none = .error "boom" ∧
    agentScan (.error "bad root") = (⟨[], [], "bad root"⟩, none) :=
  ⟨by decide, C8_rpc_error_contract.1 ⟨[(["x"], 1)], [["d"]], "boom"⟩ none (by decide),
   by rfl⟩

/-- C1 counterexample: a list consisting of one Modified directory item
is non-empty and contains a Modified item, so the claimed four-way split
demands the Divergent verdict, but printAndDetermineExit counts Modified
directories nowhere and returns the Identical (nil) verdict. -/
theorem C1_classifier_counterexample :
    printAndDetermineExit [⟨["x"], .modified, true⟩] = .identical
    ∧ printAndDetermineExit [⟨["x"], .modified, true⟩] ≠ .diffsFound := by
  refine ⟨by decide, by decide⟩

/-- Bridge between the statistics counters of printAndDetermineExit and
item membership. -/
theorem countP_split_iff (l : List DiffItem) (t : ChangeType) :
    (0 < l.countP (fun i => !i.isDir && decide (i.ctype = t))
     ∨ 0 < l.countP (fun i => i.isDir && decide (i.ctype = t)))
    ↔ ∃ i ∈ l, i.ctype = t := by
  rw [List.countP_pos_iff, List.countP_pos_iff]
  constructor
  · rintro (⟨i, hi, hp⟩ | ⟨i, hi, hp⟩) <;>
      simp only [Bool.and_eq_true, decide_eq_true_iff] at hp
    · exact ⟨i, hi, hp.2⟩
    · exact ⟨i, hi, hp.2⟩
  · rintro ⟨i, hi, ht⟩
    cases hdir : i.isDir
    · exact Or.inl ⟨i, hi, by simp [hdir, ht]⟩
    · exact Or.inr ⟨i, hi, by simp [hdir, ht]⟩

/-- C1 amended: the classifier implements the four-way case split with
"modified" meaning Modified file items (a Modified directory item is
counted nowhere): Divergent when some Modified file item exists or both
an Added and a Removed item exist; else "A is a strict subset of B" when
an Added item exists; else "B is a strict subset of A" when a Removed
item exists; else Identical — and these four outcomes cover every input
list. -/
theorem C1_classifier_cases (results : List DiffItem) :
    printAndDetermineExit results =
      if (∃ i ∈ results, i.ctype = .modified ∧ i.isDir = false)
          ∨ ((∃ i ∈ results, i.ctype = .added) ∧ (∃ i ∈ results, i.ctype = .removed)) then
        .diffsFound
      else if ∃ i ∈ results, i.ctype = .added then .aSubsetB
      else if ∃ i ∈ results, i.ctype = .removed then .bSubsetA
      else .identical := by
  have hA := countP_split_iff results .added
  have hR := countP_split_iff results .removed
  have hM : 0 < results.countP (fun i => !i.isDir && decide (i.ctype = .modified))
      ↔ (∃ i ∈ results, i.ctype = .modified ∧ i.isDir = false) := by
    rw [List.countP_pos_iff]
    constructor
    · rintro ⟨i, hi, hp⟩
      simp only [Bool.and_eq_true, Bool.not_eq_eq_eq_not, Bool.not_true,
        decide_eq_true_iff] at hp
      exact ⟨i, hi, hp.2, by simpa using hp.1⟩
    · rintro ⟨i, hi, ht, hdir⟩
      exact ⟨i, hi, by simp [hdir, ht]⟩
  rw [printAndDetermineExit]
  simp only [Bool.or_eq_true, Bool.and_eq_true, decide_eq_true_iff]
  by_cases hnil : results.length = 0
  · have : results = [] := List.eq_nil_of_length_eq_zero hnil
    subst this
    simp
  · rw [if_neg hnil]
    simp only [hM, hA, hR]

/-- C5 counterexample: for a nonexistent root (an entry whose Lstat
fails), coreScan returns an empty, error-free result instead of failing —
the walk closure returns nil on the root Lstat error exactly as it does
for any other entry, and the source's `err = walk(rootDir)` is nil on
every branch. -/
theorem C5_scan_bad_root_counterexample :
    coreScan .broken ⟨false, [], []⟩ = ([], []) := rfl

/-- C5 amended: per-entry I/O failures during traversal are swallowed and
only skip that entry, and the failure to start the traversal at a bad
root is swallowed the same way: for every configuration, a nonexistent
root yields the empty, error-free ScanResult (the walk closure of
coreScan returns nil on every branch; coreScan's only hard errors are
glob-compilation failures, which precede the walk). -/
theorem C5_scan_bad_root_empty :
    (∀ cfg : ScanCfg, coreScan .broken cfg = ([], []))
    ∧ (∀ (cfg : ScanCfg) (rel : RPath) (s : ScanState),
        walk cfg .broken rel s = s) :=
  ⟨fun _ => rfl, fun _ _ _ => rfl⟩

/-! ## Reconciliation lemmas -/

theorem addedDirsLoop_shape (sa : Bool) (L : List RPath) :
    ∀ (dm ad : List RPath), ∀ it ∈ (addedDirsLoop sa L dm ad).2.2,
      it.ctype = .added ∧ it.isDir = true ∧ it.path ∈ L := by
  induction L with
  | nil =>
    intro dm ad it hit
    simp [addedDirsLoop] at hit
  | cons d rest ih =>
    intro dm ad it hit
    rw [addedDirsLoop] at hit
    by_cases hdm : d ∈ dm
    · rw [if_pos hdm] at hit
      obtain ⟨h1, h2, h3⟩ := ih _ _ it hit
      exact ⟨h1, h2, List.mem_cons_of_mem _ h3⟩
    · rw [if_neg hdm] at hit
      dsimp only at hit
      by_cases hskip : (!sa && isInside d (ad ++ [d])) = true
      · rw [if_pos hskip] at hit
        obtain ⟨h1, h2, h3⟩ := ih _ _ it hit
        exact ⟨h1, h2, List.mem_cons_of_mem _ h3⟩
      · rw [if_neg hskip] at hit
        rcases List.mem_cons.mp hit with rfl | hit2
        · exact ⟨rfl, rfl, List.mem_cons_self _ _⟩
        · obtain ⟨h1, h2, h3⟩ := ih _ _ it hit2
          exact ⟨h1, h2, List.mem_cons_of_mem _ h3⟩

theorem addedDirsLoop_no_ancestor (L : List RPath)
    (hsorted : L.Pairwise (fun a b => pathLe a b = true)) :
    ∀ (dm ad : List RPath), ∀ it ∈ (addedDirsLoop false L dm ad).2.2,
      ¬ ∃ u, (u ∈ ad ∨ (u ∈ L ∧ u ∉ dm)) ∧ Ancestor u it.path := by
  induction L with
  | nil =>
    intro dm ad it hit
    simp [addedDirsLoop] at hit
  | cons d rest ihr =>
    have hdle := (List.pairwise_cons.mp hsorted).1
    have ih := ihr (List.pairwise_cons.mp hsorted).2
    intro dm ad it hit
    rw [addedDirsLoop] at hit
    by_cases hdm : d ∈ dm
    · rw [if_pos hdm] at hit
      rintro ⟨u, hu, hanc⟩
      refine ih _ _ it hit ⟨u, ?_, hanc⟩
      rcases hu with hu | ⟨huL, hudm⟩
      · exact Or.inl hu
      · rcases List.mem_cons.mp huL with rfl | hur
        · exact absurd hdm hudm
        · exact Or.inr ⟨hur, fun hc => hudm (List.mem_of_mem_filter hc)⟩
    · rw [if_neg hdm] at hit
      dsimp only at hit
      simp only [Bool.not_false, Bool.true_and] at hit
      have hsub : ∀ u, (u ∈ ad ∨ (u ∈ d :: rest ∧ u ∉ dm)) →
          (u ∈ ad ++ [d] ∨ (u ∈ rest ∧ u ∉ dm)) := by
        rintro u (hu | ⟨huL, hudm⟩)
        · exact Or.inl (List.mem_append_left _ hu)
        · rcases List.mem_cons.mp huL with rfl | hur
          · exact Or.inl (List.mem_append_right _ (List.mem_singleton.mpr rfl))
          · exact Or.inr ⟨hur, hudm⟩
      by_cases hskip : isInside d (ad ++ [d]) = true
      · rw [if_pos hskip] at hit
        rintro ⟨u, hu, hanc⟩
        exact ih _ _ it hit ⟨u, hsub u hu, hanc⟩
      · rw [if_neg hskip] at hit
        rcases List.mem_cons.mp hit with rfl | hit2
        · rintro ⟨u, hu, hanc⟩
          rcases hu with hu | ⟨huL, hudm⟩
          · exact hskip (isInside_iff d (ad ++ [d]) |>.mpr
              ⟨u, List.mem_append_left _ hu, hanc⟩)
          · rcases List.mem_cons.mp huL with rfl | hur
            · exact Ancestor.irrefl _ hanc
            · have h1 := hdle u hur
              have h2 := not_pathLe_of_ancestor hanc
              rw [h1] at h2
              exact Bool.noConfusion h2
        · rintro ⟨u, hu, hanc⟩
          exact ih _ _ it hit2 ⟨u, hsub u hu, hanc⟩

theorem addedDirsLoop_ad_superset (sa : Bool) (L : List RPath) :
    ∀ (dm ad : List RPath), ∀ u, (u ∈ ad ∨ (u ∈ L ∧ u ∉ dm)) →
      u ∈ (addedDirsLoop sa L dm ad).2.1 := by
  induction L with
  | nil =>
    intro dm ad u hu
    rcases hu with hu | ⟨h, -⟩
    · simpa [addedDirsLoop] using hu
    · simp at h
  | cons d rest ih =>
    intro dm ad u hu
    rw [addedDirsLoop]
    by_cases hdm : d ∈ dm
    · rw [if_pos hdm]
      refine ih _ _ u ?_
      rcases hu with hu | ⟨huL, hudm⟩
      · exact Or.inl hu
      · rcases List.mem_cons.mp huL with rfl | hur
        · exact absurd hdm hudm
        · exact Or.inr ⟨hur, fun hc => hudm (List.mem_of_mem_filter hc)⟩
    · rw [if_neg hdm]
      dsimp only
      have hu2 : u ∈ ad ++ [d] ∨ (u ∈ rest ∧ u ∉ dm) := by
        rcases hu with hu | ⟨huL, hudm⟩
        · exact Or.inl (List.mem_append_left _ hu)
        · rcases List.mem_cons.mp huL with rfl | hur
          · exact Or.inl (List.mem_append_right _ (List.mem_singleton.mpr rfl))
          · exact Or.inr ⟨hur, hudm⟩
      by_cases hskip : (!sa && isInside d (ad ++ [d])) = true
      · rw [if_pos hskip]
        exact ih _ _ u hu2
      · rw [if_neg hskip]
        exact ih _ _ u hu2

theorem addedDirsLoop_dm_superset (sa : Bool) (L : List RPath) :
    ∀ (dm ad : List RPath), ∀ u, u ∈ dm → u ∉ L →
      u ∈ (addedDirsLoop sa L dm ad).1 := by
  induction L with
  | nil =>
    intro dm ad u hu _
    simpa [addedDirsLoop] using hu
  | cons d rest ih =>
    intro dm ad u hu hnL
    have hne : u ≠ d := fun hc => hnL (hc ▸ List.mem_cons_self _ _)
    have hnr : u ∉ rest := fun hc => hnL (List.mem_cons_of_mem _ hc)
    rw [addedDirsLoop]
    by_cases hdm : d ∈ dm
    · rw [if_pos hdm]
      exact ih _ _ u (List.mem_filter.mpr ⟨hu, by simp [hne]⟩) hnr
    · rw [if_neg hdm]
      dsimp only
      by_cases hskip : (!sa && isInside d (ad ++ [d])) = true
      · rw [if_pos hskip]
        exact ih _ _ u hu hnr
      · rw [if_neg hskip]
        exact ih _ _ u hu hnr

theorem addedDirsLoop_all (L : List RPath) :
    ∀ (dm ad : List RPath), ∀ d ∈ L, d ∉ dm →
      (⟨d, .added, true⟩ : DiffItem) ∈ (addedDirsLoop true L dm ad).2.2 := by
  induction L with
  | nil =>
    intro dm ad d hd
    simp at hd
  | cons d0 rest ih =>
    intro dm ad d hd hdm
    rw [addedDirsLoop]
    by_cases hdm0 : d0 ∈ dm
    · rw [if_pos hdm0]
      rcases List.mem_cons.mp hd with rfl | hdr
      · exact absurd hdm0 hdm
      · exact ih _ _ d hdr (fun hc => hdm (List.mem_of_mem_filter hc))
    · rw [if_neg hdm0]
      dsimp only
      rw [if_neg (by simp)]
      rcases List.mem_cons.mp hd with rfl | hdr
      · exact List.mem_cons_self _ _
      · exact List.mem_cons_of_mem _ (ih _ _ d hdr hdm)

theorem removedDirsLoop_shape (sa : Bool) (L : List RPath) :
    ∀ (rd : List RPath), ∀ it ∈ (removedDirsLoop sa L rd).2,
      it.ctype = .removed ∧ it.isDir = true ∧ it.path ∈ L := by
  induction L with
  | nil =>
    intro rd it hit
    simp [removedDirsLoop] at hit
  | cons d rest ih =>
    intro rd it hit
    rw [removedDirsLoop] at hit
    dsimp only at hit
    by_cases hskip : (!sa && isInside d (rd ++ [d])) = true
    · rw [if_pos hskip] at hit
      obtain ⟨h1, h2, h3⟩ := ih _ it hit
      exact ⟨h1, h2, List.mem_cons_of_mem _ h3⟩
    · rw [if_neg hskip] at hit
      rcases List.mem_cons.mp hit with rfl | hit2
      · exact ⟨rfl, rfl, List.mem_cons_self _ _⟩
      · obtain ⟨h1, h2, h3⟩ := ih _ it hit2
        exact ⟨h1, h2, List.mem_cons_of_mem _ h3⟩

theorem removedDirsLoop_no_ancestor (L : List RPath)
    (hsorted : L.Pairwise (fun a b => pathLe a b = true)) :
    ∀ (rd : List RPath), ∀ it ∈ (removedDirsLoop false L rd).2,
      ¬ ∃ u, (u ∈ rd ∨ u ∈ L) ∧ Ancestor u it.path := by
  induction L with
  | nil =>
    intro rd it hit
    simp [removedDirsLoop] at hit
  | cons d rest ihr =>
    have hdle := (List.pairwise_cons.mp hsorted).1
    have ih := ihr (List.pairwise_cons.mp hsorted).2
    intro rd it hit
    rw [removedDirsLoop] at hit
    dsimp only at hit
    simp only [Bool.not_false, Bool.true_and] at hit
    have hsub : ∀ u, (u ∈ rd ∨ u ∈ d :: rest) → (u ∈ rd ++ [d] ∨ u ∈ rest) := by
      rintro u (hu | huL)
      · exact Or.inl (List.mem_append_left _ hu)
      · rcases List.mem_cons.mp huL with rfl | hur
        · exact Or.inl (List.mem_append_right _ (List.mem_singleton.mpr rfl))
        · exact Or.inr hur
    by_cases hskip : isInside d (rd ++ [d]) = true
    · rw [if_pos hskip] at hit
      rintro ⟨u, hu, hanc⟩
      exact ih _ it hit ⟨u, hsub u hu, hanc⟩
    · rw [if_neg hskip] at hit
      rcases List.mem_cons.mp hit with rfl | hit2
      · rintro ⟨u, hu, hanc⟩
        rcases hu with hu | huL
        · exact hskip (isInside_iff d (rd ++ [d]) |>.mpr
            ⟨u, List.mem_append_left _ hu, hanc⟩)
        · rcases List.mem_cons.mp huL with rfl | hur
          · exact Ancestor.irrefl _ hanc
          · have h1 := hdle u hur
            have h2 := not_pathLe_of_ancestor hanc
            rw [h1] at h2
            exact Bool.noConfusion h2
      · rintro ⟨u, hu, hanc⟩
        exact ih _ it hit2 ⟨u, hsub u hu, hanc⟩

theorem removedDirsLoop_rd_superset (sa : Bool) (L : List RPath) :
    ∀ (rd : List RPath), ∀ u, (u ∈ rd ∨ u ∈ L) →
      u ∈ (removedDirsLoop sa L rd).1 := by
  induction L with
  | nil =>
    intro rd u hu
    rcases hu with hu | h
    · simpa [removedDirsLoop] using hu
    · simp at h
  | cons d rest ih =>
    intro rd u hu
    have hu2 : u ∈ rd ++ [d] ∨ u ∈ rest := by
      rcases hu with hu | huL
      · exact Or.inl (List.mem_append_left _ hu)
      · rcases List.mem_cons.mp huL with rfl | hur
        · exact Or.inl (List.mem_append_right _ (List.mem_singleton.mpr rfl))
        · exact Or.inr hur
    rw [removedDirsLoop]
    dsimp only
    by_cases hskip : (!sa && isInside d (rd ++ [d])) = true
    · rw [if_pos hskip]
      exact ih _ u hu2
    · rw [if_neg hskip]
      exact ih _ u hu2

theorem removedDirsLoop_all (L : List RPath) :
    ∀ (rd : List RPath), ∀ d ∈ L,
      (⟨d, .removed, true⟩ : DiffItem) ∈ (removedDirsLoop true L rd).2 := by
  induction L with
  | nil =>
    intro rd d hd
    simp at hd
  | cons d0 rest ih =>
    intro rd d hd
    rw [removedDirsLoop]
    dsimp only
    rw [if_neg (by simp)]
    rcases List.mem_cons.mp hd with rfl | hdr
    · exact List.mem_cons_self _ _
    · exact List.mem_cons_of_mem _ (ih _ d hdr)

/-- C4: for every pair of scan results, with the show-all switch
disabled, the reconciliation phase's output never contains an Added or
Removed item (directory or file) whose proper ancestor directory is
unique on the same side; with show-all enabled, every unique directory
and every unique file appears. -/
theorem C4_reconcile_pruning (filesA filesB dirsA dirsB : List RPath) :
    (∀ it ∈ (reconcile false filesA filesB dirsA dirsB).items,
      (it.ctype = .added → ¬ ∃ u, (u ∈ dirsB ∧ u ∉ dirsA) ∧ Ancestor u it.path)
      ∧ (it.ctype = .removed → ¬ ∃ u, (u ∈ dirsA ∧ u ∉ dirsB) ∧ Ancestor u it.path))
    ∧ (∀ d, d ∈ dirsB → d ∉ dirsA →
        (⟨d, .added, true⟩ : DiffItem) ∈ (reconcile true filesA filesB dirsA dirsB).items)
    ∧ (∀ d, d ∈ dirsA → d ∉ dirsB →
        (⟨d, .removed, true⟩ : DiffItem) ∈ (reconcile true filesA filesB dirsA dirsB).items)
    ∧ (∀ p, p ∈ filesB → p ∉ filesA →
        (⟨p, .added, false⟩ : DiffItem) ∈ (reconcile true filesA filesB dirsA dirsB).items)
    ∧ (∀ p, p ∈ filesA → p ∉ filesB →
        (⟨p, .removed, false⟩ : DiffItem) ∈ (reconcile true filesA filesB dirsA dirsB).items) := by
  have memB : ∀ u, u ∈ dirsB ∧ u ∉ dirsA →
      u ∈ sortPaths dirsB ∧ u ∉ dirsA.dedup := by
    rintro u ⟨h1, h2⟩
    exact ⟨mem_sortPaths.mpr h1, fun hc => h2 (List.mem_dedup.mp hc)⟩
  refine ⟨?_, ?_, ?_, ?_, ?_⟩
  · intro it hit
    rw [reconcile] at hit
    dsimp only at hit
    rcases List.mem_append.mp hit with habc | hit4
    · rcases List.mem_append.mp habc with hab | hit3
      · rcases List.mem_append.mp hab with hit1 | hit2
        · -- unique-directory items of side B
          have shape := addedDirsLoop_shape false (sortPaths dirsB) _ _ it hit1
          refine ⟨fun _ => ?_, fun hrem => ?_⟩
          · rintro ⟨u, hu, hanc⟩
            exact addedDirsLoop_no_ancestor (sortPaths dirsB) (sortPaths_sorted dirsB)
              _ _ it hit1 ⟨u, Or.inr (memB u hu), hanc⟩
          · rw [shape.1] at hrem
            exact ChangeType.noConfusion hrem
        · -- unique-directory items of side A
          have shape := removedDirsLoop_shape false _ _ it hit2
          refine ⟨fun hadd => ?_, fun _ => ?_⟩
          · rw [shape.1] at hadd
            exact ChangeType.noConfusion hadd
          · rintro ⟨u, ⟨huA, hunB⟩, hanc⟩
            have hudm := addedDirsLoop_dm_superset false (sortPaths dirsB) dirsA.dedup [] u
              (List.mem_dedup.mpr huA) (fun hc => hunB (mem_sortPaths.mp hc))
            exact removedDirsLoop_no_ancestor _ (sortPaths_sorted _) _ it hit2
              ⟨u, Or.inr (mem_sortPaths.mpr hudm), hanc⟩
      · -- unique-file items of side A
        obtain ⟨p, hp, he⟩ := List.mem_filterMap.mp hit3
        simp only [Bool.not_false, Bool.true_and] at he
        by_cases hIns : isInside p (removedDirsLoop false
            (sortPaths (addedDirsLoop false (sortPaths dirsB) dirsA.dedup []).1) []).1 = true
        · rw [if_pos hIns] at he
          exact Option.noConfusion he
        · rw [if_neg hIns] at he
          have hitp := Option.some.inj he
          refine ⟨fun hadd => ?_, fun _ => ?_⟩
          · rw [← hitp] at hadd
            exact ChangeType.noConfusion hadd
          · rintro ⟨u, ⟨huA, hunB⟩, hanc⟩
            have hudm := addedDirsLoop_dm_superset false (sortPaths dirsB) dirsA.dedup [] u
              (List.mem_dedup.mpr huA) (fun hc => hunB (mem_sortPaths.mp hc))
            have hurd := removedDirsLoop_rd_superset false _ [] u
              (Or.inr (mem_sortPaths.mpr hudm))
            rw [← hitp] at hanc
            exact hIns ((isInside_iff p _).mpr ⟨u, hurd, hanc⟩)
    · -- unique-file items of side B
      obtain ⟨p, hp, he⟩ := List.mem_filterMap.mp hit4
      simp only [Bool.not_false, Bool.true_and] at he
      by_cases hIns : isInside p (addedDirsLoop false (sortPaths dirsB) dirsA.dedup []).2.1
          = true
      · rw [if_pos hIns] at he
        exact Option.noConfusion he
      · rw [if_neg hIns] at he
        have hitp := Option.some.inj he
        refine ⟨fun _ => ?_, fun hrem => ?_⟩
        · rintro ⟨u, hu, hanc⟩
          have huad := addedDirsLoop_ad_superset false (sortPaths dirsB) dirsA.dedup [] u
            (Or.inr (memB u hu))
          rw [← hitp] at hanc
          exact hIns ((isInside_iff p _).mpr ⟨u, huad, hanc⟩)
        · rw [← hitp] at hrem
          exact ChangeType.noConfusion hrem
  · intro d hdB hdnA
    rw [reconcile]
    dsimp only
    exact List.mem_append_left _ (List.mem_append_left _ (List.mem_append_left _
      (addedDirsLoop_all (sortPaths dirsB) dirsA.dedup [] d (mem_sortPaths.mpr hdB)
        (fun hc => hdnA (List.mem_dedup.mp hc)))))
  · intro d hdA hdnB
    rw [reconcile]
    dsimp only
    have hudm := addedDirsLoop_dm_superset true (sortPaths dirsB) dirsA.dedup [] d
      (List.mem_dedup.mpr hdA) (fun hc => hdnB (mem_sortPaths.mp hc))
    exact List.mem_append_left _ (List.mem_append_left _ (List.mem_append_right _
      (removedDirsLoop_all _ [] d (mem_sortPaths.mpr hudm))))
  · intro p hpB hpnA
    rw [reconcile]
    dsimp only
    refine List.mem_append_right _ ?_
    exact List.mem_filterMap.mpr ⟨p, List.mem_filter.mpr ⟨hpB, by simp [hpnA]⟩, by simp⟩
  · intro p hpA hpnB
    rw [reconcile]
    dsimp only
    refine List.mem_append_left _ (List.mem_append_right _ ?_)
    exact List.mem_filterMap.mpr ⟨p, List.mem_filter.mpr ⟨hpA, by simp [hpnB]⟩, by simp⟩

/-! ## Scanner invariant lemmas -/

/-- Paths located at or strictly below `rel`; never the root path. -/
def UnderEq (rel p : RPath) : Prop := p ≠ [] ∧ ∃ w, p = rel ++ w

theorem underEq_self {rel : RPath} (h : rel ≠ []) : UnderEq rel rel :=
  ⟨h, [], by simp⟩

theorem underEq_mono {rel : RPath} {n : String} {p : RPath}
    (h : UnderEq (rel ++ [n]) p) : UnderEq rel p := by
  obtain ⟨hne, w, rfl⟩ := h
  exact ⟨hne, [n] ++ w, by simp⟩

theorem underEq_inj {rel : RPath} {n m : String} {p : RPath}
    (h1 : UnderEq (rel ++ [n]) p) (h2 : UnderEq (rel ++ [m]) p) : n = m := by
  obtain ⟨-, w1, rfl⟩ := h1
  obtain ⟨-, w2, heq⟩ := h2
  rw [List.append_assoc, List.append_assoc] at heq
  have := List.append_cancel_left heq
  exact (List.cons.injEq _ _ _ _ ▸ this).1

theorem underEq_ne_base {rel : RPath} {n : String} {p : RPath}
    (h : UnderEq (rel ++ [n]) p) : p ≠ rel := by
  obtain ⟨-, w, rfl⟩ := h
  intro hc
  have := congrArg List.length hc
  simp at this

/-- Keys of the files association list. -/
def fkeys (m : List (RPath × Int)) : List RPath := m.map Prod.fst

theorem fkeys_mapInsert (k : RPath) (v : Int) (m : List (RPath × Int)) :
    ∀ p, p ∈ fkeys (mapInsert k v m) ↔ p = k ∨ p ∈ fkeys m := by
  induction m with
  | nil =>
    intro p
    simp only [mapInsert, fkeys, List.map_cons, List.map_nil, List.mem_cons,
      List.not_mem_nil, or_false]
  | cons kv rest ih =>
    intro p
    rcases kv with ⟨k2, v2⟩
    rw [mapInsert]
    by_cases hk : k2 = k
    · subst hk
      rw [if_pos rfl]
      simp [fkeys]
    · rw [if_neg hk]
      simp only [fkeys, List.map_cons, List.mem_cons] at ih ⊢
      rw [ih p]
      tauto

/-- Disjointness invariant of a scan state: no path is both a files key
and a recorded directory. -/
def Disj (s : ScanState) : Prop := ∀ p, p ∈ fkeys s.files → p ∉ s.dirs

/-- Freshness of a subtree position: nothing at or below `rel` has been
recorded yet. -/
def Fresh (rel : RPath) (s : ScanState) : Prop :=
  ∀ p, UnderEq rel p → p ∉ fkeys s.files ∧ p ∉ s.dirs

theorem fresh_mono {rel : RPath} {n : String} {s : ScanState}
    (h : Fresh rel s) : Fresh (rel ++ [n]) s :=
  fun p hp => h p (underEq_mono hp)

theorem fileStep_spec (cfg : ScanCfg) (size : Int) (rel : RPath) (s : ScanState) :
    (fileStep cfg size rel s).dirs = s.dirs
    ∧ (∀ p, p ∈ fkeys (fileStep cfg size rel s).files →
        (p = rel ∧ rel ≠ []) ∨ p ∈ fkeys s.files) := by
  rw [fileStep]
  by_cases h0 : rel = []
  · rw [if_pos h0]
    exact ⟨rfl, fun p hp => Or.inr hp⟩
  · rw [if_neg h0]
    by_cases h1 : cfg.excGlobs.any (fun g => g rel) = true
    · rw [if_pos h1]
      exact ⟨rfl, fun p hp => Or.inr hp⟩
    · rw [if_neg h1]
      by_cases h2 : (!cfg.incGlobs.isEmpty && !cfg.incGlobs.any (fun g => g rel)) = true
      · rw [if_pos h2]
        exact ⟨rfl, fun p hp => Or.inr hp⟩
      · rw [if_neg h2]
        refine ⟨rfl, fun p hp => ?_⟩
        rcases (fkeys_mapInsert rel size s.files p).mp hp with rfl | hp2
        · exact Or.inl ⟨rfl, h0⟩
        · exact Or.inr hp2

theorem fileStep_triple (cfg : ScanCfg) (size : Int) (rel : RPath) (s : ScanState) :
    (∀ p, p ∈ fkeys (fileStep cfg size rel s).files → p ∈ fkeys s.files ∨ UnderEq rel p)
    ∧ (∀ p, p ∈ (fileStep cfg size rel s).dirs → p ∈ s.dirs ∨ UnderEq rel p)
    ∧ (Fresh rel s → Disj s → Disj (fileStep cfg size rel s)) := by
  obtain ⟨hdirs, hfiles⟩ := fileStep_spec cfg size rel s
  refine ⟨fun p hp => ?_, fun p hp => ?_, fun hfresh hd => ?_⟩
  · rcases hfiles p hp with ⟨rfl, hne⟩ | hp2
    · exact Or.inr (underEq_self hne)
    · exact Or.inl hp2
  · rw [hdirs] at hp
    exact Or.inl hp
  · intro p hp
    rw [hdirs]
    rcases hfiles p hp with ⟨rfl, hne⟩ | hp2
    · exact (hfresh p (underEq_self hne)).2
    · exact hd p hp2

theorem mem_namesOf_head (n : String) (e : FSEntry) (rest : FSEntries) :
    n ∈ namesOf (.cons n e rest) := by
  rw [namesOf]
  exact List.mem_cons_self _ _

theorem mem_namesOf_tail {n : String} (n1 : String) (e : FSEntry) {rest : FSEntries}
    (h : n ∈ namesOf rest) : n ∈ namesOf (.cons n1 e rest) := by
  rw [namesOf]
  exact List.mem_cons_of_mem _ h

mutual
theorem walk_spec (cfg : ScanCfg) : ∀ (e : FSEntry) (rel : RPath) (s : ScanState),
    wfEntry e = true →
    (∀ p, p ∈ fkeys (walk cfg e rel s).files → p ∈ fkeys s.files ∨ UnderEq rel p)
    ∧ (∀ p, p ∈ (walk cfg e rel s).dirs → p ∈ s.dirs ∨ UnderEq rel p)
    ∧ (Fresh rel s → Disj s → Disj (walk cfg e rel s))
  | .broken, rel, s, _ => by
    rw [walk.eq_1]
    exact ⟨fun p hp => Or.inl hp, fun p hp => Or.inl hp, fun _ hd => hd⟩
  | .file size, rel, s, _ => by
    rw [walk.eq_2]
    exact fileStep_triple cfg size rel s
  | .symlink target .fail, rel, s, _ => by
    rw [walk.eq_3]
    by_cases hfs : cfg.followSym = true
    · rw [if_pos hfs]
      exact ⟨fun p hp => Or.inl hp, fun p hp => Or.inl hp, fun _ hd => hd⟩
    · rw [if_neg hfs]
      exact fileStep_triple cfg (Int.ofNat target.length) rel s
  | .symlink target (.ok realPath e), rel, s, hwf => by
    rw [walk.eq_4]
    by_cases hfs : cfg.followSym = true
    · rw [if_pos hfs]
      by_cases hv : realPath ∈ s.visited
      · rw [if_pos hv]
        exact ⟨fun p hp => Or.inl hp, fun p hp => Or.inl hp, fun _ hd => hd⟩
      · rw [if_neg hv]
        have hwe : wfEntry e = true := by
          rw [wfEntry.eq_3, wfResolved.eq_2] at hwf
          exact hwf
        exact walkResolved_spec cfg e rel
          { files := s.files, dirs := s.dirs, visited := realPath :: s.visited } hwe
    · rw [if_neg hfs]
      exact fileStep_triple cfg (Int.ofNat target.length) rel s
  | .dir entries, rel, s, hwf => by
    rw [walk.eq_5]
    have hwes : wfEntries entries = true := by
      rw [wfEntry.eq_2] at hwf
      exact hwf
    by_cases hexc : rel ≠ [] ∧ cfg.excGlobs.any (fun g => g rel) = true
    · rw [if_pos hexc]
      exact ⟨fun p hp => Or.inl hp, fun p hp => Or.inl hp, fun _ hd => hd⟩
    · rw [if_neg hexc]
      by_cases hroot : rel = []
      · rw [if_pos hroot]
        have h := walkEntries_spec cfg entries rel s hwes
        refine ⟨fun p hp => ?_, fun p hp => ?_, fun hfresh hd => ?_⟩
        · rcases h.1 p hp with hp2 | ⟨n, -, hun⟩
          · exact Or.inl hp2
          · exact Or.inr (underEq_mono hun)
        · rcases h.2.1 p hp with hp2 | ⟨n, -, hun⟩
          · exact Or.inl hp2
          · exact Or.inr (underEq_mono hun)
        · exact h.2.2 (fun n _ => fresh_mono hfresh) hd
      · rw [if_neg hroot]
        have h := walkEntries_spec cfg entries rel
          { files := s.files, dirs := s.dirs ++ [rel], visited := s.visited } hwes
        refine ⟨fun p hp => ?_, fun p hp => ?_, fun hfresh hd => ?_⟩
        · rcases h.1 p hp with hp2 | ⟨n, -, hun⟩
          · exact Or.inl hp2
          · exact Or.inr (underEq_mono hun)
        · rcases h.2.1 p hp with hp2 | ⟨n, -, hun⟩
          · rcases List.mem_append.mp hp2 with hin | hsing
            · exact Or.inl hin
            · refine Or.inr ?_
              rw [List.mem_singleton.mp hsing]
              exact underEq_self hroot
          · exact Or.inr (underEq_mono hun)
        · have hd1 : Disj { files := s.files, dirs := s.dirs ++ [rel], visited := s.visited } := by
            intro p hp hpc
            rcases List.mem_append.mp hpc with hin | hsing
            · exact hd p hp hin
            · rw [List.mem_singleton.mp hsing] at hp
              exact (hfresh rel (underEq_self hroot)).1 hp
          have hfr1 : ∀ n, n ∈ namesOf entries →
              Fresh (rel ++ [n]) { files := s.files, dirs := s.dirs ++ [rel], visited := s.visited } := by
            intro n _ p hpu
            have h0 := hfresh p (underEq_mono hpu)
            refine ⟨h0.1, fun hpc => ?_⟩
            rcases List.mem_append.mp hpc with hin | hsing
            · exact h0.2 hin
            · exact underEq_ne_base hpu (List.mem_singleton.mp hsing)
          exact h.2.2 hfr1 hd1

theorem walkResolved_spec (cfg : ScanCfg) : ∀ (e : FSEntry) (rel : RPath) (s : ScanState),
    wfEntry e = true →
    (∀ p, p ∈ fkeys (walkResolved cfg e rel s).files → p ∈ fkeys s.files ∨ UnderEq rel p)
    ∧ (∀ p, p ∈ (walkResolved cfg e rel s).dirs → p ∈ s.dirs ∨ UnderEq rel p)
    ∧ (Fresh rel s → Disj s → Disj (walkResolved cfg e rel s))
  | .broken, rel, s, _ => by
    rw [walkResolved.eq_4]
    exact ⟨fun p hp => Or.inl hp, fun p hp => Or.inl hp, fun _ hd => hd⟩
  | .symlink target res, rel, s, _ => by
    rw [walkResolved.eq_3]
    exact ⟨fun p hp => Or.inl hp, fun p hp => Or.inl hp, fun _ hd => hd⟩
  | .file size, rel, s, _ => by
    rw [walkResolved.eq_1]
    exact fileStep_triple cfg size rel s
  | .dir entries, rel, s, hwf => by
    rw [walkResolved.eq_2]
    have hwes : wfEntries entries = true := by
      rw [wfEntry.eq_2] at hwf
      exact hwf
    by_cases hexc : rel ≠ [] ∧ cfg.excGlobs.any (fun g => g rel) = true
    · rw [if_pos hexc]
      exact ⟨fun p hp => Or.inl hp, fun p hp => Or.inl hp, fun _ hd => hd⟩
    · rw [if_neg hexc]
      by_cases hroot : rel = []
      · rw [if_pos hroot]
        have h := walkEntries_spec cfg entries rel s hwes
        refine ⟨fun p hp => ?_, fun p hp => ?_, fun hfresh hd => ?_⟩
        · rcases h.1 p hp with hp2 | ⟨n, -, hun⟩
          · exact Or.inl hp2
          · exact Or.inr (underEq_mono hun)
        · rcases h.2.1 p hp with hp2 | ⟨n, -, hun⟩
          · exact Or.inl hp2
          · exact Or.inr (underEq_mono hun)
        · exact h.2.2 (fun n _ => fresh_mono hfresh) hd
      · rw [if_neg hroot]
        have h := walkEntries_spec cfg entries rel
          { files := s.files, dirs := s.dirs ++ [rel], visited := s.visited } hwes
        refine ⟨fun p hp => ?_, fun p hp => ?_, fun hfresh hd => ?_⟩
        · rcases h.1 p hp with hp2 | ⟨n, -, hun⟩
          · exact Or.inl hp2
          · exact Or.inr (underEq_mono hun)
        · rcases h.2.1 p hp with hp2 | ⟨n, -, hun⟩
          · rcases List.mem_append.mp hp2 with hin | hsing
            · exact Or.inl hin
            · refine Or.inr ?_
              rw [List.mem_singleton.mp hsing]
              exact underEq_self hroot
          · exact Or.inr (underEq_mono hun)
        · have hd1 : Disj { files := s.files, dirs := s.dirs ++ [rel], visited := s.visited } := by
            intro p hp hpc
            rcases List.mem_append.mp hpc with hin | hsing
            · exact hd p hp hin
            · rw [List.mem_singleton.mp hsing] at hp
              exact (hfresh rel (underEq_self hroot)).1 hp
          have hfr1 : ∀ n, n ∈ namesOf entries →
              Fresh (rel ++ [n]) { files := s.files, dirs := s.dirs ++ [rel], visited := s.visited } := by
            intro n _ p hpu
            have h0 := hfresh p (underEq_mono hpu)
            refine ⟨h0.1, fun hpc => ?_⟩
            rcases List.mem_append.mp hpc with hin | hsing
            · exact h0.2 hin
            · exact underEq_ne_base hpu (List.mem_singleton.mp hsing)
          exact h.2.2 hfr1 hd1

theorem walkEntries_spec (cfg : ScanCfg) : ∀ (es : FSEntries) (rel : RPath) (s : ScanState),
    wfEntries es = true →
    (∀ p, p ∈ fkeys (walkEntries cfg es rel s).files →
      p ∈ fkeys s.files ∨ ∃ n, n ∈ namesOf es ∧ UnderEq (rel ++ [n]) p)
    ∧ (∀ p, p ∈ (walkEntries cfg es rel s).dirs →
      p ∈ s.dirs ∨ ∃ n, n ∈ namesOf es ∧ UnderEq (rel ++ [n]) p)
    ∧ ((∀ n, n ∈ namesOf es → Fresh (rel ++ [n]) s) → Disj s →
      Disj (walkEntries cfg es rel s))
  | .nil, rel, s, _ => by
    rw [walkEntries.eq_1]
    exact ⟨fun p hp => Or.inl hp, fun p hp => Or.inl hp, fun _ hd => hd⟩
  | .cons n1 e rest, rel, s, hwf => by
    rw [walkEntries.eq_2]
    rw [wfEntries.eq_2, Bool.and_eq_true, Bool.and_eq_true] at hwf
    obtain ⟨⟨hnotin, hwe⟩, hwrest⟩ := hwf
    have hnotin2 : n1 ∉ namesOf rest := decide_eq_true_iff.mp hnotin
    have h1 := walk_spec cfg e (rel ++ [n1]) s hwe
    have h2 := walkEntries_spec cfg rest rel (walk cfg e (rel ++ [n1]) s) hwrest
    refine ⟨fun p hp => ?_, fun p hp => ?_, fun hfresh hd => ?_⟩
    · rcases h2.1 p hp with hp2 | ⟨n, hn, hun⟩
      · rcases h1.1 p hp2 with hp3 | hun1
        · exact Or.inl hp3
        · exact Or.inr ⟨n1, mem_namesOf_head n1 e rest, hun1⟩
      · exact Or.inr ⟨n, mem_namesOf_tail n1 e hn, hun⟩
    · rcases h2.2.1 p hp with hp2 | ⟨n, hn, hun⟩
      · rcases h1.2.1 p hp2 with hp3 | hun1
        · exact Or.inl hp3
        · exact Or.inr ⟨n1, mem_namesOf_head n1 e rest, hun1⟩
      · exact Or.inr ⟨n, mem_namesOf_tail n1 e hn, hun⟩
    · have hd1 : Disj (walk cfg e (rel ++ [n1]) s) :=
        h1.2.2 (hfresh n1 (mem_namesOf_head n1 e rest)) hd
      have hfr2 : ∀ n, n ∈ namesOf rest →
          Fresh (rel ++ [n]) (walk cfg e (rel ++ [n1]) s) := by
        intro n hn p hpu
        have h0 := hfresh n (mem_namesOf_tail n1 e hn) p hpu
        refine ⟨fun hpc => ?_, fun hpc => ?_⟩
        · rcases h1.1 p hpc with hp3 | hun1
          · exact h0.1 hp3
          · exact hnotin2 ((underEq_inj hun1 hpu) ▸ hn)
        · rcases h1.2.1 p hpc with hp3 | hun1
          · exact h0.2 hp3
          · exact hnotin2 ((underEq_inj hun1 hpu) ▸ hn)
      exact h2.2.2 hfr2 hd1
end

/-- C9: for every root and every include/exclude/followSymlinks
configuration, the ScanResult of coreScan has no relative path that is
simultaneously a key of the Files map and a member of the Dirs list, and
the root itself (the empty relative path) is recorded as neither. The
well-formedness hypothesis states what ReadDir guarantees: sibling names
are distinct. -/
theorem C9_scan_disjoint (root : FSEntry) (cfg : ScanCfg) (hwf : wfEntry root = true) :
    (∀ p, p ∈ fkeys (coreScan root cfg).1 → p ∉ (coreScan root cfg).2)
    ∧ [] ∉ fkeys (coreScan root cfg).1 ∧ [] ∉ (coreScan root cfg).2 := by
  have h := walk_spec cfg root [] (⟨[], [], []⟩ : ScanState) hwf
  have hfresh : Fresh [] (⟨[], [], []⟩ : ScanState) := by
    intro p hp
    exact ⟨List.not_mem_nil p, List.not_mem_nil p⟩
  have hd : Disj (⟨[], [], []⟩ : ScanState) := by
    intro p hp
    exact absurd hp (List.not_mem_nil p)
  refine ⟨?_, ?_, ?_⟩
  · intro p hp
    exact h.2.2 hfresh hd p hp
  · intro hc
    rcases h.1 [] hc with h0 | ⟨hne, -⟩
    · exact (List.not_mem_nil _) h0
    · exact hne rfl
  · intro hc
    rcases h.2.1 [] hc with h0 | ⟨hne, -⟩
    · exact (List.not_mem_nil _) h0
    · exact hne rfl

/-- Concrete filesystem for the scanner witness: a root directory with a
file `a`, a directory `b` holding file `c`, and a symlink `s` whose
target resolves to a directory holding file `c`. -/
def demoFS : FSEntry :=
  .dir (.cons "a" (.file 3)
    (.cons "b" (.dir (.cons "c" (.file 1) .nil))
    (.cons "s" (.symlink "b" (.ok "/real/b" (.dir (.cons "c" (.file 1) .nil))))
    .nil)))

/-- C9 witness: the demo tree is well-formed, its scan records the root
as neither file nor directory, and the scanned file `a` is not also a
directory. -/
theorem C9_scan_disjoint_witness :
    wfEntry demoFS = true
    ∧ [] ∉ fkeys (coreScan demoFS ⟨true, [], []⟩).1
    ∧ (["a"] : RPath) ∉ (coreScan demoFS ⟨true, [], []⟩).2 :=
  ⟨by decide, (C9_scan_disjoint demoFS ⟨true, [], []⟩ (by decide)).2.1,
   (C9_scan_disjoint demoFS ⟨true, [], []⟩ (by decide)).1 ["a"] (by decide)⟩

/-- C4 witness: in the spec's example (added directory `a` with nested
directory `a/b` and file `a/b/c`), show-all enabled reports the nested
added file. -/
theorem C4_reconcile_pruning_witness :
    (⟨["a", "b", "c"], .added, false⟩ : DiffItem)
      ∈ (reconcile true [] [["a", "b", "c"]] [] [["a"], ["a", "b"]]).items :=
  (C4_reconcile_pruning [] [["a", "b", "c"]] [] [["a"], ["a", "b"]]).2.2.2.1
    ["a", "b", "c"] (by decide) (by decide)
